import Mathlib

/-!
Verification development for the PySwarms particle-swarm-optimization core.

The repository's own tree only ships the package `__init__` modules; the
engine (optimizer loop, topologies, boundary handlers, binary variant) is
described by the design document, so those parts are modelled here from the
spec, faithfully to its words, over exact rationals (the code's floats are
modelled as ℚ, and the sigmoid transfer over ℝ).  The seeded pseudo-random
generator is modelled as a deterministic linear-congruential stream.
-/

namespace PySwarms

/-- Modelled from the spec: the seeded pseudo-random number generator
("a caller supplying an explicit seed must get bit-reproducible output").
One step of a linear congruential generator with a 2^31 modulus. -/
def lcgNext (s : ℕ) : ℕ := (1103515245 * s + 12345) % 2147483648

/-- The k-th state of the generator stream started at seed `s`. -/
def lcgIter : ℕ → ℕ → ℕ
  | 0, s => s
  | k + 1, s => lcgNext (lcgIter k s)

/-- A uniform draw in `[0,1)` read off a generator state. -/
def lcgUnit (s : ℕ) : ℚ := ((s % 2147483648 : ℕ) : ℚ) / 2147483648

/-- Clamp a rational to the interval `[lo, hi]` (numpy `clip`). -/
def clampQ (lo hi x : ℚ) : ℚ := max lo (min hi x)

/-- Remainder of `a` modulo `b` on rationals, `a - b * ⌊a / b⌋`. -/
def qmod (a b : ℚ) : ℚ := a - b * (⌊a / b⌋ : ℤ)

/-- Strict lexicographic comparison of particles `a`, `b` by
(personal-best cost, particle index): the spec's tie-break rule
"lowest particle index wins". -/
def lexLT (c : List ℚ) (a b : ℕ) : Prop :=
  c.getD a 0 < c.getD b 0 ∨ (c.getD a 0 = c.getD b 0 ∧ a < b)

instance (c : List ℚ) (a b : ℕ) : Decidable (lexLT c a b) := by
  unfold lexLT; infer_instance

/-- Reflexive closure of `lexLT`. -/
def lexLE (c : List ℚ) (a b : ℕ) : Prop := lexLT c a b ∨ a = b

/-- Modelled from the spec: the argmin accumulator over a neighbor list —
"restricts the argmin to its k-neighbor set", "tie-break: lowest particle
index". -/
def neighBestAux (c : List ℚ) : List ℕ → ℕ → ℕ
  | [], b => b
  | j :: rest, b => neighBestAux c rest (if lexLT c j b then j else b)

/-- Modelled from the spec: index of the neighborhood best (minimum
personal-best cost, lowest index on ties) among a list of particle
indices; `0` for an empty list. -/
def neighBest (c : List ℚ) : List ℕ → ℕ
  | [] => 0
  | j :: rest => neighBestAux c rest j

/-- Insertion of an index into a list sorted by a Boolean comparison. -/
def insertLe (le : ℕ → ℕ → Bool) (a : ℕ) : List ℕ → List ℕ
  | [] => [a]
  | b :: t => if le a b then a :: b :: t else b :: insertLe le a t

/-- Insertion sort of particle indices by a Boolean comparison. -/
def sortByLe (le : ℕ → ℕ → Bool) : List ℕ → List ℕ
  | [] => []
  | a :: t => insertLe le a (sortByLe le t)

/-- Index distance between particles `i` and `j` on a ring of `n`
particles ("index adjacency with wraparound"). -/
def ringDist (n i j : ℕ) : ℕ := min ((n + i - j) % n) ((n + j - i) % n)

/-- Comparison used to pick a particle's nearest neighbors by ring
distance, breaking distance ties by particle index. -/
def ringLe (n i a b : ℕ) : Bool :=
  decide (ringDist n i a < ringDist n i b ∨
    (ringDist n i a = ringDist n i b ∧ a ≤ b))

/-- Modelled from the spec: the Ring neighbor set of particle `i` — the
`k` particles nearest to `i` in wraparound index distance, itself
included (distance 0 puts `i` first). -/
def ringNeighbors (n k i : ℕ) : List ℕ :=
  (sortByLe (ringLe n i) (List.range n)).take k

/-- Modelled from the spec: the topology strategy, a closed set of tagged
variants — Star, or Ring with neighbor count `k`. -/
inductive Topology where
  | star : Topology
  | ring : ℕ → Topology

/-- Visibility set of particle `i` under a topology over `n` particles. -/
def neighborhoodOf : Topology → ℕ → ℕ → List ℕ
  | Topology.star, n, _ => List.range n
  | Topology.ring k, n, i => ringNeighbors n k i

/-- Index of the global best over all personal bests: argmin of
personal-best cost, lowest particle index on ties. -/
def starIdx (c : List ℚ) : ℕ := neighBest c (List.range c.length)

/-- Modelled from the spec: Star `compute_best` — "returns the single
argmin over all n_particles personal bests, broadcast identically to
every particle.  Tie-break: lowest particle index wins." -/
def computeBestStar (pbPos : List (List ℚ)) (c : List ℚ) :
    List (List ℚ × ℚ) :=
  List.replicate c.length (pbPos.getD (starIdx c) [], c.getD (starIdx c) 0)

/-- Modelled from the spec: Ring `compute_best` — "for each particle,
restricts the argmin to its k-neighbor set (itself included)", tie-break
by lowest particle index. -/
def computeBestRing (pbPos : List (List ℚ)) (c : List ℚ) (k : ℕ) :
    List (List ℚ × ℚ) :=
  (List.range c.length).map (fun i =>
    (pbPos.getD (neighBest c (ringNeighbors c.length k i)) [],
     c.getD (neighBest c (ringNeighbors c.length k i)) 0))

/-- Modelled from the spec: the error taxonomy of §7. -/
inductive PSOError where
  | DimensionMismatch : PSOError
  | InvalidOption : PSOError
  | InvalidTopology : PSOError
  | ObjectiveShapeError : PSOError
  deriving DecidableEq

/-- Modelled from the spec: construction of a Ring-topology optimizer —
"fails with InvalidTopology if k < 1 or k > n_particles". -/
def mkRingOptimizer (n k : ℕ) : Except PSOError Topology :=
  if k < 1 ∨ n < k then Except.error PSOError.InvalidTopology
  else Except.ok (Topology.ring k)

/-- Optimizer coefficients: inertia `w`, cognitive `c1`, social `c2`. -/
structure Options where
  c1 : ℚ
  c2 : ℚ
  w : ℚ

/-- Modelled from the spec: SwarmState — positions, velocities,
personal-best positions and personal-best costs, each indexed by
particle. -/
structure Swarm where
  pos : List (List ℚ)
  vel : List (List ℚ)
  pbestPos : List (List ℚ)
  pbestCost : List ℚ

/-- Modelled from the spec: personal-best cost bookkeeping — "if new
cost < personal-best cost, overwrite personal best — ties do not
overwrite, preserving the earliest-found best". -/
def updPBestCost (old cost : List ℚ) : List ℚ :=
  (List.range old.length).map (fun j =>
    if cost.getD j 0 < old.getD j 0 then cost.getD j 0 else old.getD j 0)

/-- Modelled from the spec: personal-best position bookkeeping, driven
by the same strict-improvement test as the costs. -/
def updPBestPos (old cost : List ℚ) (oldPos pos : List (List ℚ)) :
    List (List ℚ) :=
  (List.range old.length).map (fun j =>
    if cost.getD j 0 < old.getD j 0 then pos.getD j [] else oldPos.getD j [])

/-- Modelled from the spec: the raw PSO velocity equation
`v = w*v + c1*r1*(pbest - x) + c2*r2*(gbest - x)` with fresh uniform
draws `r1, r2` per particle per dimension, followed by the optional
velocity clamp. -/
def velUpdate (o : Options) (vclamp : Option (ℚ × ℚ)) (top : Topology)
    (pos vel pbPos : List (List ℚ)) (pbc : List ℚ) (rng : ℕ) :
    List (List ℚ) :=
  (List.range pos.length).map (fun i =>
    (List.range (pos.headD []).length).map (fun j =>
      let d := (pos.headD []).length
      let g := pbPos.getD (neighBest pbc (neighborhoodOf top pos.length i)) []
      let r1 := lcgUnit (lcgIter (2 * (i * d + j) + 1) rng)
      let r2 := lcgUnit (lcgIter (2 * (i * d + j) + 2) rng)
      let raw := o.w * (vel.getD i []).getD j 0
        + o.c1 * r1 * ((pbPos.getD i []).getD j 0 - (pos.getD i []).getD j 0)
        + o.c2 * r2 * (g.getD j 0 - (pos.getD i []).getD j 0)
      match vclamp with
      | none => raw
      | some (lo, hi) => clampQ lo hi raw))

/-- Modelled from the spec: position update `x = x + v`, then the
boundary handler when bounds are configured (the Nearest/clip policy,
per coordinate). -/
def posUpdate (bounds : Option (List ℚ × List ℚ))
    (pos vel : List (List ℚ)) : List (List ℚ) :=
  (List.range pos.length).map (fun i =>
    (List.range (pos.headD []).length).map (fun j =>
      let x := (pos.getD i []).getD j 0 + (vel.getD i []).getD j 0
      match bounds with
      | none => x
      | some (lb, ub) => clampQ (lb.getD j x) (ub.getD j x) x))

/-- Modelled from the spec: one iteration of the optimizer —
(a) evaluate the objective, (b) update personal bests, (c) recompute the
neighborhood best from the current personal bests, (d)-(g) velocity and
position updates, consuming `2*n*d` random draws. -/
def step (f : List (List ℚ) → List ℚ) (o : Options) (top : Topology)
    (bounds : Option (List ℚ × List ℚ)) (vclamp : Option (ℚ × ℚ))
    (s : Swarm) (rng : ℕ) : Swarm × ℕ :=
  let cost := f s.pos
  let pbc := updPBestCost s.pbestCost cost
  let pbp := updPBestPos s.pbestCost cost s.pbestPos s.pos
  let vel := velUpdate o vclamp top s.pos s.vel pbp pbc rng
  (⟨posUpdate bounds s.pos vel, vel, pbp, pbc⟩,
   lcgIter (2 * s.pos.length * (s.pos.headD []).length) rng)

/-- Swarm-level best cost: the minimum personal-best cost (index
tie-break by lowest particle index). -/
def swarmBestCost (c : List ℚ) : ℚ := c.getD (starIdx c) 0

/-- Swarm-level best position: the personal-best position of the
particle holding the swarm-level best cost. -/
def swarmBestPos (pbPos : List (List ℚ)) (c : List ℚ) : List ℚ :=
  pbPos.getD (starIdx c) []

/-- The swarm state and generator state after `t` iterations. -/
def swarmAt (f : List (List ℚ) → List ℚ) (o : Options) (top : Topology)
    (bounds : Option (List ℚ × List ℚ)) (vclamp : Option (ℚ × ℚ))
    (s : Swarm) (seed : ℕ) (t : ℕ) : Swarm × ℕ :=
  (fun p => step f o top bounds vclamp p.1 p.2)^[t] (s, seed)

/-- Modelled from the spec: the iteration loop — run exactly the given
number of iterations; per iteration append the best cost to the history
and record the matrix the objective was invoked on. -/
def runLoop (f : List (List ℚ) → List ℚ) (o : Options) (top : Topology)
    (bounds : Option (List ℚ × List ℚ)) (vclamp : Option (ℚ × ℚ)) :
    ℕ → Swarm → ℕ → Swarm × List ℚ × List (List (List ℚ))
  | 0, s, _ => (s, [], [])
  | t + 1, s, rng =>
    let sr := step f o top bounds vclamp s rng
    let rest := runLoop f o top bounds vclamp t sr.1 sr.2
    (rest.1, swarmBestCost sr.1.pbestCost :: rest.2.1, s.pos :: rest.2.2)

/-- Result of a run: best cost, best position, cost history, and the
(instrumented) log of matrices the objective function was called on. -/
structure RunResult where
  bestCost : ℚ
  bestPos : List ℚ
  costHistory : List ℚ
  callLog : List (List (List ℚ))

/-- Modelled from the spec: `optimize(objective_fn, iters, ...)` — run
the fixed iteration budget from the initial swarm and seed and return
the final best cost, best position and full cost history. -/
def optimize (f : List (List ℚ) → List ℚ) (o : Options) (top : Topology)
    (bounds : Option (List ℚ × List ℚ)) (vclamp : Option (ℚ × ℚ))
    (iters : ℕ) (s : Swarm) (seed : ℕ) : RunResult :=
  let r := runLoop f o top bounds vclamp iters s seed
  ⟨swarmBestCost r.1.pbestCost, swarmBestPos r.1.pbestPos r.1.pbestCost,
   r.2.1, r.2.2⟩

/-- Modelled from the spec: the closed set of boundary-handler
variants of §4.3. -/
inductive BoundaryVariant where
  | nearest : BoundaryVariant
  | random : BoundaryVariant
  | shrink : BoundaryVariant
  | reflective : BoundaryVariant
  | intermediate : BoundaryVariant
  | periodic : BoundaryVariant

/-- Modelled from the spec: per-coordinate boundary repair.  All
variants "operate per-coordinate, independently, and must leave
in-bounds coordinates untouched"; an out-of-bounds coordinate is mapped
back by the variant's policy (`prev` is the previous in-bounds
coordinate used by Shrink/Intermediate, `u` the uniform draw used by
Random). -/
def repairCoord (v : BoundaryVariant) (lo hi x prev u : ℚ) : ℚ :=
  if lo ≤ x ∧ x ≤ hi then x
  else match v with
    | BoundaryVariant.nearest => clampQ lo hi x
    | BoundaryVariant.random => lo + u * (hi - lo)
    | BoundaryVariant.shrink =>
        prev + (((if x < lo then lo else hi) - prev) / (x - prev)) * (x - prev)
    | BoundaryVariant.reflective =>
        if qmod (x - lo) (2 * (hi - lo)) ≤ hi - lo
        then lo + qmod (x - lo) (2 * (hi - lo))
        else lo + (2 * (hi - lo) - qmod (x - lo) (2 * (hi - lo)))
    | BoundaryVariant.intermediate => (prev + (if x < lo then lo else hi)) / 2
    | BoundaryVariant.periodic => lo + qmod (x - lo) (hi - lo)

/-- Boundary repair of a whole position vector, coordinate by
coordinate against the `min`/`max` bound vectors. -/
def repairVec (v : BoundaryVariant) (lb ub x prev u : List ℚ) : List ℚ :=
  (List.range x.length).map (fun j =>
    repairCoord v (lb.getD j 0) (ub.getD j 0) (x.getD j 0)
      (prev.getD j 0) (u.getD j 0))

/-- Modelled from the spec: the binary variant's transfer function
`sigmoid(v) = 1/(1+e^-v)`. -/
noncomputable def sigmoid (v : ℝ) : ℝ := 1 / (1 + Real.exp (-v))

open Classical in
/-- Modelled from the spec: one entry of the binary position update —
"set position to 1 if sigmoid(velocity) > threshold, else 0". -/
noncomputable def binEntry (v u : ℚ) : ℚ :=
  if sigmoid (v : ℝ) > (u : ℝ) then 1 else 0

/-- Modelled from the spec: the binary position update — "draw a
uniform random threshold per particle-dimension" and threshold the
sigmoid of the velocity; no boundary handler is involved. -/
noncomputable def binaryPositionUpdate (vel : List (List ℚ)) (rng : ℕ) :
    List (List ℚ) :=
  (List.range vel.length).map (fun i =>
    (List.range (vel.headD []).length).map (fun j =>
      binEntry ((vel.getD i []).getD j 0)
        (lcgUnit (lcgIter (i * (vel.headD []).length + j + 1) rng))))

/-- One `from ... import ...` line of a package `__init__` module. -/
structure ImportStmt where
  fromModule : String
  names : List String
  deriving DecidableEq

/-- The import lines of `src/pyswarms/__init__.py`. -/
def pyswarmsInitImports : List ImportStmt :=
  [⟨".single", ["global_best", "local_best", "general_optimizer"]⟩,
   ⟨".discrete", ["binary"]⟩,
   ⟨".utils.decorators", ["cost"]⟩]

/-- The `__all__` list of `src/pyswarms/__init__.py`. -/
def pyswarmsInitAll : List String :=
  ["global_best", "local_best", "general_optimizer", "binary", "cost"]

/-- The sphere benchmark objective, `f(x) = sum x_i^2`, row-wise over
the swarm matrix (the spec's test scenario). -/
def sphereObj (m : List (List ℚ)) : List ℚ :=
  m.map (fun r => (r.map (fun x => x * x)).sum)

/-- A concrete two-particle, one-dimension swarm for evaluations. -/
def demoSwarm : Swarm :=
  ⟨[[1], [2]], [[0], [0]], [[1], [2]], [1000, 1000]⟩

/-- A concrete coefficient set for evaluations. -/
def demoOptions : Options := ⟨1/2, 3/10, 9/10⟩

theorem getD_range_map {α : Type} (g : ℕ → α) (n j : ℕ) (hj : j < n) (d : α) :
    ((List.range n).map g).getD j d = g j := by
  rw [List.getD_eq_getElem?_getD]
  simp [List.getElem?_range hj]

theorem lexLE_refl (c : List ℚ) (a : ℕ) : lexLE c a a := Or.inr rfl

theorem lexLT_trans {c : List ℚ} {a b d : ℕ}
    (h₁ : lexLT c a b) (h₂ : lexLT c b d) : lexLT c a d := by
  rcases h₁ with h₁ | ⟨e₁, l₁⟩ <;> rcases h₂ with h₂ | ⟨e₂, l₂⟩
  · exact Or.inl (lt_trans h₁ h₂)
  · exact Or.inl (e₂ ▸ h₁)
  · exact Or.inl (e₁ ▸ h₂)
  · exact Or.inr ⟨e₁.trans e₂, lt_trans l₁ l₂⟩

theorem lexLE_trans {c : List ℚ} {a b d : ℕ}
    (h₁ : lexLE c a b) (h₂ : lexLE c b d) : lexLE c a d := by
  rcases h₁ with h₁ | rfl
  · rcases h₂ with h₂ | rfl
    · exact Or.inl (lexLT_trans h₁ h₂)
    · exact Or.inl h₁
  · exact h₂

theorem lexLE_of_not_lexLT {c : List ℚ} {a b : ℕ} (h : ¬ lexLT c a b) :
    lexLE c b a := by
  unfold lexLT at h
  push_neg at h
  rcases lt_trichotomy (c.getD b 0) (c.getD a 0) with hlt | heq | hgt
  · exact Or.inl (Or.inl hlt)
  · rcases Nat.lt_trichotomy b a with hn | rfl | hn
    · exact Or.inl (Or.inr ⟨heq, hn⟩)
    · exact Or.inr rfl
    · exact absurd (h.2 heq.symm) (not_le.mpr hn)
  · exact absurd hgt (not_lt.mpr h.1)

theorem lexLE_antisymm {c : List ℚ} {a b : ℕ}
    (h₁ : lexLE c a b) (h₂ : lexLE c b a) : a = b := by
  rcases h₁ with h₁ | rfl
  · rcases h₂ with h₂ | rfl
    · rcases h₁ with h₁ | ⟨e₁, l₁⟩ <;> rcases h₂ with h₂ | ⟨e₂, l₂⟩
      · exact absurd h₂ (not_lt.mpr (le_of_lt h₁))
      · exact absurd h₁ (not_lt.mpr (le_of_eq e₂))
      · exact absurd h₂ (not_lt.mpr (le_of_eq e₁))
      · exact absurd l₂ (not_lt.mpr (le_of_lt l₁))
    · rfl
  · rfl

theorem neighBestAux_mem (c : List ℚ) (l : List ℕ) (b : ℕ) :
    neighBestAux c l b ∈ b :: l := by
  induction l generalizing b with
  | nil => simp [neighBestAux]
  | cons j rest ih =>
    have step : neighBestAux c (j :: rest) b
        = neighBestAux c rest (if lexLT c j b then j else b) := rfl
    rw [step]
    rcases List.mem_cons.mp (ih (if lexLT c j b then j else b)) with h | h
    · rw [h]
      by_cases hc : lexLT c j b
      · rw [if_pos hc]
        exact List.mem_cons.mpr (Or.inr (List.mem_cons_self j rest))
      · rw [if_neg hc]
        exact List.mem_cons_self b (j :: rest)
    · exact List.mem_cons.mpr (Or.inr (List.mem_cons.mpr (Or.inr h)))

theorem neighBestAux_le (c : List ℚ) (l : List ℕ) (b : ℕ) :
    ∀ x ∈ b :: l, lexLE c (neighBestAux c l b) x := by
  induction l generalizing b with
  | nil => intro x hx; simp at hx; subst hx; exact lexLE_refl c x
  | cons j rest ih =>
    intro x hx
    have step : neighBestAux c (j :: rest) b
        = neighBestAux c rest (if lexLT c j b then j else b) := rfl
    have hb : lexLE c (if lexLT c j b then j else b) b := by
      by_cases hc : lexLT c j b
      · rw [if_pos hc]; exact Or.inl hc
      · rw [if_neg hc]; exact lexLE_refl c b
    have hj : lexLE c (if lexLT c j b then j else b) j := by
      by_cases hc : lexLT c j b
      · rw [if_pos hc]; exact lexLE_refl c j
      · rw [if_neg hc]; exact lexLE_of_not_lexLT hc
    rcases List.mem_cons.mp hx with rfl | hx
    · rw [step]
      exact lexLE_trans
        (ih _ _ (List.mem_cons_self _ _)) hb
    · rcases List.mem_cons.mp hx with rfl | hx
      · rw [step]
        exact lexLE_trans (ih _ _ (List.mem_cons_self _ _)) hj
      · rw [step]
        exact ih _ _ (List.mem_cons.mpr (Or.inr hx))

theorem neighBest_mem (c : List ℚ) (l : List ℕ) (hl : l ≠ []) :
    neighBest c l ∈ l := by
  cases l with
  | nil => exact absurd rfl hl
  | cons j rest => exact neighBestAux_mem c rest j

theorem neighBest_le (c : List ℚ) (l : List ℕ) :
    ∀ x ∈ l, lexLE c (neighBest c l) x := by
  cases l with
  | nil => intro x hx; simp at hx
  | cons j rest =>
    intro x hx
    exact neighBestAux_le c rest j x hx

/-- The neighborhood best depends only on which particles are in the
neighbor set, not on the order the set is listed in. -/
theorem neighBest_eq_of_mem_iff (c : List ℚ) (l₁ l₂ : List ℕ)
    (h₁ : l₁ ≠ []) (h₂ : l₂ ≠ []) (hmem : ∀ x, x ∈ l₁ ↔ x ∈ l₂) :
    neighBest c l₁ = neighBest c l₂ := by
  apply lexLE_antisymm (c := c)
  · exact neighBest_le c l₁ _ ((hmem _).mpr (neighBest_mem c l₂ h₂))
  · exact neighBest_le c l₂ _ ((hmem _).mp (neighBest_mem c l₁ h₁))

theorem insertLe_perm (le : ℕ → ℕ → Bool) (a : ℕ) (l : List ℕ) :
    List.Perm (insertLe le a l) (a :: l) := by
  induction l with
  | nil => simp [insertLe]
  | cons b t ih =>
    by_cases hc : le a b
    · simp [insertLe, hc]
    · simp only [insertLe, hc, if_neg, Bool.false_eq_true, ite_false]
      exact ((ih.cons b).trans (List.Perm.swap a b t))

theorem sortByLe_perm (le : ℕ → ℕ → Bool) (l : List ℕ) :
    List.Perm (sortByLe le l) l := by
  induction l with
  | nil => simp [sortByLe]
  | cons a t ih => exact (insertLe_perm le a (sortByLe le t)).trans (ih.cons a)

theorem lexLE_val_le {c : List ℚ} {a b : ℕ} (h : lexLE c a b) :
    c.getD a 0 ≤ c.getD b 0 := by
  rcases h with h | rfl
  · rcases h with h | ⟨e, _⟩
    · exact le_of_lt h
    · exact le_of_eq e
  · exact le_refl _

theorem updPBestCost_length (old cost : List ℚ) :
    (updPBestCost old cost).length = old.length := by
  simp [updPBestCost]

theorem updPBestCost_getD_le (old cost : List ℚ) (j : ℕ) :
    (updPBestCost old cost).getD j 0 ≤ old.getD j 0 := by
  by_cases hj : j < old.length
  · rw [updPBestCost, getD_range_map _ _ _ hj]
    split_ifs with h
    · exact le_of_lt h
    · exact le_refl _
  · rw [List.getD_eq_default, List.getD_eq_default]
    · exact le_of_not_lt hj
    · exact le_of_not_lt (by rw [updPBestCost_length]; exact hj)

theorem starIdx_lt (c : List ℚ) (hc : c ≠ []) : starIdx c < c.length := by
  have hne : List.range c.length ≠ [] := by
    simp [List.range_eq_nil, List.length_eq_zero]
    intro h
    exact hc h
  have := neighBest_mem c (List.range c.length) hne
  exact List.mem_range.mp this

theorem swarmBestCost_le (c : List ℚ) (j : ℕ) (hj : j < c.length) :
    swarmBestCost c ≤ c.getD j 0 := by
  have h := neighBest_le c (List.range c.length) j (List.mem_range.mpr hj)
  exact lexLE_val_le h

theorem swarmBestCost_mono (old cost : List ℚ) :
    swarmBestCost (updPBestCost old cost) ≤ swarmBestCost old := by
  by_cases hold : old = []
  · subst hold
    simp [updPBestCost, swarmBestCost, starIdx, neighBest]
  · have hlt : starIdx old < old.length := starIdx_lt old hold
    have hlt' : starIdx old < (updPBestCost old cost).length := by
      rw [updPBestCost_length]; exact hlt
    calc swarmBestCost (updPBestCost old cost)
        ≤ (updPBestCost old cost).getD (starIdx old) 0 :=
          swarmBestCost_le _ _ hlt'
      _ ≤ old.getD (starIdx old) 0 := updPBestCost_getD_le old cost _
      _ = swarmBestCost old := rfl

theorem step_pbestCost (f : List (List ℚ) → List ℚ) (o : Options)
    (top : Topology) (bounds : Option (List ℚ × List ℚ))
    (vclamp : Option (ℚ × ℚ)) (s : Swarm) (rng : ℕ) :
    (step f o top bounds vclamp s rng).1.pbestCost
      = updPBestCost s.pbestCost (f s.pos) := rfl

theorem runLoop_hist_chain (f : List (List ℚ) → List ℚ) (o : Options)
    (top : Topology) (bounds : Option (List ℚ × List ℚ))
    (vclamp : Option (ℚ × ℚ)) (t : ℕ) (s : Swarm) (rng : ℕ) :
    List.Chain' (fun a b => b ≤ a)
      ((runLoop f o top bounds vclamp t s rng).2.1) ∧
    (∀ h0 ∈ ((runLoop f o top bounds vclamp t s rng).2.1).head?,
      h0 ≤ swarmBestCost s.pbestCost) := by
  induction t generalizing s rng with
  | zero => simp [runLoop]
  | succ t ih =>
    have hrec : (runLoop f o top bounds vclamp (t + 1) s rng).2.1
        = swarmBestCost
            (step f o top bounds vclamp s rng).1.pbestCost
          :: (runLoop f o top bounds vclamp t
                (step f o top bounds vclamp s rng).1
                (step f o top bounds vclamp s rng).2).2.1 := rfl
    rw [hrec]
    obtain ⟨ihChain, ihHead⟩ :=
      ih (step f o top bounds vclamp s rng).1
        (step f o top bounds vclamp s rng).2
    constructor
    · rw [List.chain'_cons']
      exact ⟨ihHead, ihChain⟩
    · intro h0 hh0
      simp only [List.head?_cons, Option.mem_def, Option.some.injEq] at hh0
      subst hh0
      rw [step_pbestCost]
      exact swarmBestCost_mono s.pbestCost (f s.pos)

/-- C1: for every run of `optimize` and every index `i` into the returned
cost history, `cost_history[i] ≥ cost_history[i+1]`: the best cost
recorded per iteration is monotonically non-increasing across the whole
returned history. -/
theorem optimize_costHistory_monotone (f : List (List ℚ) → List ℚ)
    (o : Options) (top : Topology) (bounds : Option (List ℚ × List ℚ))
    (vclamp : Option (ℚ × ℚ)) (iters : ℕ) (s : Swarm) (seed : ℕ) (i : ℕ)
    (hi : i + 1 <
      (optimize f o top bounds vclamp iters s seed).costHistory.length) :
    (optimize f o top bounds vclamp iters s seed).costHistory.getD (i + 1) 0
      ≤ (optimize f o top bounds vclamp iters s seed).costHistory.getD i 0 := by
  have hch := (runLoop_hist_chain f o top bounds vclamp iters s seed).1
  have hhist : (optimize f o top bounds vclamp iters s seed).costHistory
      = (runLoop f o top bounds vclamp iters s seed).2.1 := rfl
  rw [hhist] at hi ⊢
  rw [List.chain'_iff_get] at hch
  have h := hch i (by omega)
  rw [List.getD_eq_getElem _ _ hi, List.getD_eq_getElem _ _ (by omega)]
  simpa using h

/-- Witness for C1: a concrete three-iteration run on the sphere
objective whose recorded history is non-increasing at index 1. -/
theorem optimize_costHistory_monotone_witness :
    1 + 1 <
      (optimize sphereObj demoOptions Topology.star none none 3
        demoSwarm 42).costHistory.length ∧
    (optimize sphereObj demoOptions Topology.star none none 3
        demoSwarm 42).costHistory.getD (1 + 1) 0
      ≤ (optimize sphereObj demoOptions Topology.star none none 3
        demoSwarm 42).costHistory.getD 1 0 :=
  ⟨by decide,
   optimize_costHistory_monotone sphereObj demoOptions Topology.star
     none none 3 demoSwarm 42 1 (by decide)⟩

theorem updPBestCost_getD (old cost : List ℚ) (j : ℕ) (hj : j < old.length) :
    (updPBestCost old cost).getD j 0
      = if cost.getD j 0 < old.getD j 0 then cost.getD j 0
        else old.getD j 0 := by
  rw [updPBestCost, getD_range_map _ _ _ hj]

theorem updPBestPos_getD (old cost : List ℚ) (oldPos pos : List (List ℚ))
    (j : ℕ) (hj : j < old.length) :
    (updPBestPos old cost oldPos pos).getD j []
      = if cost.getD j 0 < old.getD j 0 then pos.getD j []
        else oldPos.getD j [] := by
  rw [updPBestPos, getD_range_map _ _ _ hj]

theorem step_pbestPos (f : List (List ℚ) → List ℚ) (o : Options)
    (top : Topology) (bounds : Option (List ℚ × List ℚ))
    (vclamp : Option (ℚ × ℚ)) (s : Swarm) (rng : ℕ) :
    (step f o top bounds vclamp s rng).1.pbestPos
      = updPBestPos s.pbestCost (f s.pos) s.pbestPos s.pos := rfl

theorem swarmAt_succ (f : List (List ℚ) → List ℚ) (o : Options)
    (top : Topology) (bounds : Option (List ℚ × List ℚ))
    (vclamp : Option (ℚ × ℚ)) (s : Swarm) (seed t : ℕ) :
    swarmAt f o top bounds vclamp s seed (t + 1)
      = step f o top bounds vclamp
          (swarmAt f o top bounds vclamp s seed t).1
          (swarmAt f o top bounds vclamp s seed t).2 := by
  unfold swarmAt
  rw [Function.iterate_succ_apply']

theorem swarmAt_pbest_adj (f : List (List ℚ) → List ℚ) (o : Options)
    (top : Topology) (bounds : Option (List ℚ × List ℚ))
    (vclamp : Option (ℚ × ℚ)) (s : Swarm) (seed j t : ℕ) :
    (swarmAt f o top bounds vclamp s seed (t + 1)).1.pbestCost.getD j 0
      ≤ (swarmAt f o top bounds vclamp s seed t).1.pbestCost.getD j 0 := by
  rw [swarmAt_succ, step_pbestCost]
  exact updPBestCost_getD_le _ _ j

/-- C2: for every particle and every pair of iterations, the
personal-best cost never increases; and on a tie (the fresh cost equals
the current personal-best cost) neither the personal-best cost nor the
personal-best position is overwritten, preserving the earlier-found
best. -/
theorem personal_best_never_increases (f : List (List ℚ) → List ℚ)
    (o : Options) (top : Topology) (bounds : Option (List ℚ × List ℚ))
    (vclamp : Option (ℚ × ℚ)) (s : Swarm) (seed j t₁ t₂ : ℕ)
    (hle : t₁ ≤ t₂) :
    ((swarmAt f o top bounds vclamp s seed t₂).1.pbestCost.getD j 0
      ≤ (swarmAt f o top bounds vclamp s seed t₁).1.pbestCost.getD j 0) ∧
    (∀ t, j < (swarmAt f o top bounds vclamp s seed t).1.pbestCost.length →
      (f (swarmAt f o top bounds vclamp s seed t).1.pos).getD j 0
        = (swarmAt f o top bounds vclamp s seed t).1.pbestCost.getD j 0 →
      (swarmAt f o top bounds vclamp s seed (t + 1)).1.pbestCost.getD j 0
        = (swarmAt f o top bounds vclamp s seed t).1.pbestCost.getD j 0 ∧
      (swarmAt f o top bounds vclamp s seed (t + 1)).1.pbestPos.getD j []
        = (swarmAt f o top bounds vclamp s seed t).1.pbestPos.getD j []) := by
  constructor
  · induction t₂, hle using Nat.le_induction with
    | base => exact le_refl _
    | succ m hm ih =>
      exact le_trans (swarmAt_pbest_adj f o top bounds vclamp s seed j m) ih
  · intro t hjt heq
    have hnot : ¬ ((f (swarmAt f o top bounds vclamp s seed t).1.pos).getD j 0
        < (swarmAt f o top bounds vclamp s seed t).1.pbestCost.getD j 0) := by
      rw [heq]
      exact lt_irrefl _
    constructor
    · rw [swarmAt_succ, step_pbestCost, updPBestCost_getD _ _ _ hjt,
        if_neg hnot]
    · rw [swarmAt_succ, step_pbestPos, updPBestPos_getD _ _ _ _ _ hjt,
        if_neg hnot]

/-- Witness for C2: for particle 0 of a concrete run, the personal-best
cost after two iterations is at most its initial value, and ties never
overwrite the stored best. -/
theorem personal_best_never_increases_witness :
    (0 : ℕ) ≤ 2 ∧
    (((swarmAt sphereObj demoOptions Topology.star none none demoSwarm
          42 2).1.pbestCost.getD 0 0
        ≤ (swarmAt sphereObj demoOptions Topology.star none none demoSwarm
          42 0).1.pbestCost.getD 0 0) ∧
      (∀ t, 0 < (swarmAt sphereObj demoOptions Topology.star none none
          demoSwarm 42 t).1.pbestCost.length →
        (sphereObj (swarmAt sphereObj demoOptions Topology.star none none
            demoSwarm 42 t).1.pos).getD 0 0
          = (swarmAt sphereObj demoOptions Topology.star none none
            demoSwarm 42 t).1.pbestCost.getD 0 0 →
        (swarmAt sphereObj demoOptions Topology.star none none demoSwarm
            42 (t + 1)).1.pbestCost.getD 0 0
          = (swarmAt sphereObj demoOptions Topology.star none none
            demoSwarm 42 t).1.pbestCost.getD 0 0 ∧
        (swarmAt sphereObj demoOptions Topology.star none none demoSwarm
            42 (t + 1)).1.pbestPos.getD 0 []
          = (swarmAt sphereObj demoOptions Topology.star none none
            demoSwarm 42 t).1.pbestPos.getD 0 [])) :=
  ⟨by decide,
   personal_best_never_increases sphereObj demoOptions Topology.star
     none none demoSwarm 42 0 0 2 (by decide)⟩

/-- C3: for a non-empty personal-best state, Star `compute_best` gives
every particle the same pair — the minimum personal-best cost over all
particles together with its position — and on ties the lowest particle
index is selected. -/
theorem computeBestStar_spec (pbPos : List (List ℚ)) (c : List ℚ)
    (hc : c ≠ []) :
    starIdx c < c.length ∧
    (∀ j, j < c.length → c.getD (starIdx c) 0 ≤ c.getD j 0) ∧
    (∀ j, j < c.length → c.getD j 0 = c.getD (starIdx c) 0 →
      starIdx c ≤ j) ∧
    (∀ i, i < c.length → (computeBestStar pbPos c).getD i ([], 0)
      = (pbPos.getD (starIdx c) [], c.getD (starIdx c) 0)) := by
  refine ⟨starIdx_lt c hc, ?_, ?_, ?_⟩
  · intro j hj
    exact swarmBestCost_le c j hj
  · intro j hj heq
    have h := neighBest_le c (List.range c.length) j (List.mem_range.mpr hj)
    rcases h with h | h
    · rcases h with h | ⟨_, hlt⟩
      · exact absurd heq (ne_of_gt h)
      · exact le_of_lt hlt
    · exact le_of_eq h
  · intro i hi
    rw [computeBestStar,
      List.getD_eq_getElem _ _ (by simpa using hi)]
    simp

/-- Witness for C3: on personal-best costs `[3, 1, 1, 2]` the Star best
is the minimum cost 1, held first by particle 1 (not particle 2), and it
is broadcast identically to every particle. -/
theorem computeBestStar_spec_witness :
    ([(3 : ℚ), 1, 1, 2] ≠ []) ∧
    (starIdx [(3 : ℚ), 1, 1, 2] < [(3 : ℚ), 1, 1, 2].length ∧
     (∀ j, j < [(3 : ℚ), 1, 1, 2].length →
       [(3 : ℚ), 1, 1, 2].getD (starIdx [(3 : ℚ), 1, 1, 2]) 0
         ≤ [(3 : ℚ), 1, 1, 2].getD j 0) ∧
     (∀ j, j < [(3 : ℚ), 1, 1, 2].length →
       [(3 : ℚ), 1, 1, 2].getD j 0
         = [(3 : ℚ), 1, 1, 2].getD (starIdx [(3 : ℚ), 1, 1, 2]) 0 →
       starIdx [(3 : ℚ), 1, 1, 2] ≤ j) ∧
     (∀ i, i < [(3 : ℚ), 1, 1, 2].length →
       (computeBestStar [[10], [11], [12], [13]]
           [(3 : ℚ), 1, 1, 2]).getD i ([], 0)
         = ([[(10 : ℚ)], [11], [12], [13]].getD
             (starIdx [(3 : ℚ), 1, 1, 2]) [],
            [(3 : ℚ), 1, 1, 2].getD (starIdx [(3 : ℚ), 1, 1, 2]) 0))) :=
  ⟨by decide,
   computeBestStar_spec [[10], [11], [12], [13]] [(3 : ℚ), 1, 1, 2]
     (by decide)⟩

theorem ringNeighbors_full (n i : ℕ) :
    ringNeighbors n n i = sortByLe (ringLe n i) (List.range n) := by
  rw [ringNeighbors]
  apply List.take_of_length_le
  rw [(sortByLe_perm (ringLe n i) (List.range n)).length_eq,
    List.length_range]

/-- C4: Ring `compute_best` with `k = n_particles` yields, for every
particle, exactly the Star `compute_best` answer: the two returned
per-particle lists of (best position, best cost) pairs are equal. -/
theorem ring_full_k_equals_star (pbPos : List (List ℚ)) (c : List ℚ) :
    computeBestRing pbPos c c.length = computeBestStar pbPos c := by
  by_cases hc : c = []
  · subst hc
    rfl
  · have hn : 0 < c.length := List.length_pos.mpr hc
    have hidx : ∀ i,
        neighBest c (ringNeighbors c.length c.length i) = starIdx c := by
      intro i
      rw [ringNeighbors_full]
      apply neighBest_eq_of_mem_iff
      · apply List.ne_nil_of_length_pos
        rw [(sortByLe_perm (ringLe c.length i)
          (List.range c.length)).length_eq, List.length_range]
        exact hn
      · apply List.ne_nil_of_length_pos
        rw [List.length_range]
        exact hn
      · intro x
        exact (sortByLe_perm (ringLe c.length i)
          (List.range c.length)).mem_iff
    rw [computeBestRing, computeBestStar]
    refine List.eq_replicate_iff.mpr ⟨by simp, ?_⟩
    intro b hb
    obtain ⟨i, _, rfl⟩ := List.mem_map.mp hb
    rw [hidx i]

theorem headD_mem {α : Type} (l : List α) (d : α) (h : l ≠ []) :
    l.headD d ∈ l := by
  cases l with
  | nil => exact absurd rfl h
  | cons a t => exact List.mem_cons_self a t

theorem posUpdate_length (bounds : Option (List ℚ × List ℚ))
    (pos vel : List (List ℚ)) :
    (posUpdate bounds pos vel).length = pos.length := by
  simp [posUpdate]

theorem posUpdate_rows (bounds : Option (List ℚ × List ℚ))
    (pos vel : List (List ℚ)) :
    ∀ r ∈ posUpdate bounds pos vel, r.length = (pos.headD []).length := by
  intro r hr
  obtain ⟨i, _, rfl⟩ := List.mem_map.mp hr
  simp

theorem step_pos (f : List (List ℚ) → List ℚ) (o : Options)
    (top : Topology) (bounds : Option (List ℚ × List ℚ))
    (vclamp : Option (ℚ × ℚ)) (s : Swarm) (rng : ℕ) :
    (step f o top bounds vclamp s rng).1.pos
      = posUpdate bounds s.pos
          (velUpdate o vclamp top s.pos s.vel
            (updPBestPos s.pbestCost (f s.pos) s.pbestPos s.pos)
            (updPBestCost s.pbestCost (f s.pos)) rng) := rfl

theorem step_shape (n d : ℕ) (f : List (List ℚ) → List ℚ) (o : Options)
    (top : Topology) (bounds : Option (List ℚ × List ℚ))
    (vclamp : Option (ℚ × ℚ)) (s : Swarm) (rng : ℕ)
    (h1 : s.pos.length = n) (_h2 : ∀ r ∈ s.pos, r.length = d)
    (h3 : (s.pos.headD []).length = d) :
    (step f o top bounds vclamp s rng).1.pos.length = n ∧
    (∀ r ∈ (step f o top bounds vclamp s rng).1.pos, r.length = d) ∧
    ((step f o top bounds vclamp s rng).1.pos.headD []).length = d := by
  rw [step_pos]
  refine ⟨by rw [posUpdate_length, h1], ?_, ?_⟩
  · intro r hr
    rw [posUpdate_rows _ _ _ r hr, h3]
  · by_cases hnil : posUpdate bounds s.pos
        (velUpdate o vclamp top s.pos s.vel
          (updPBestPos s.pbestCost (f s.pos) s.pbestPos s.pos)
          (updPBestCost s.pbestCost (f s.pos)) rng) = []
    · rw [hnil]
      have hlen : s.pos.length = 0 := by
        have := posUpdate_length bounds s.pos
          (velUpdate o vclamp top s.pos s.vel
            (updPBestPos s.pbestCost (f s.pos) s.pbestPos s.pos)
            (updPBestCost s.pbestCost (f s.pos)) rng)
        rw [hnil] at this
        exact this.symm
      have hp : s.pos = [] := List.length_eq_zero.mp hlen
      rw [hp] at h3
      simp only [List.headD_nil, List.length_nil]
      simpa using h3
    · have hmem := headD_mem _ ([] : List ℚ) hnil
      rw [posUpdate_rows _ _ _ _ hmem]
      exact h3

theorem runLoop_lengths (f : List (List ℚ) → List ℚ) (o : Options)
    (top : Topology) (bounds : Option (List ℚ × List ℚ))
    (vclamp : Option (ℚ × ℚ)) (t : ℕ) (s : Swarm) (rng : ℕ) :
    (runLoop f o top bounds vclamp t s rng).2.1.length = t ∧
    (runLoop f o top bounds vclamp t s rng).2.2.length = t := by
  induction t generalizing s rng with
  | zero => simp [runLoop]
  | succ t ih =>
    have hrec := ih (step f o top bounds vclamp s rng).1
      (step f o top bounds vclamp s rng).2
    simp only [runLoop, List.length_cons]
    omega

theorem runLoop_log_shape (f : List (List ℚ) → List ℚ) (o : Options)
    (top : Topology) (bounds : Option (List ℚ × List ℚ))
    (vclamp : Option (ℚ × ℚ)) (n d t : ℕ) (s : Swarm) (rng : ℕ)
    (h1 : s.pos.length = n) (h2 : ∀ r ∈ s.pos, r.length = d)
    (h3 : (s.pos.headD []).length = d) :
    ∀ m ∈ (runLoop f o top bounds vclamp t s rng).2.2,
      m.length = n ∧ ∀ r ∈ m, r.length = d := by
  induction t generalizing s rng with
  | zero => simp [runLoop]
  | succ t ih =>
    intro m hm
    have hrec : (runLoop f o top bounds vclamp (t + 1) s rng).2.2
        = s.pos :: (runLoop f o top bounds vclamp t
            (step f o top bounds vclamp s rng).1
            (step f o top bounds vclamp s rng).2).2.2 := rfl
    rw [hrec] at hm
    rcases List.mem_cons.mp hm with rfl | hm
    · exact ⟨h1, h2⟩
    · obtain ⟨g1, g2, g3⟩ :=
        step_shape n d f o top bounds vclamp s rng h1 h2 h3
      exact ih _ _ g1 g2 g3 m hm

/-- C5: the optimizer performs exactly `iters` iterations with no early
exit — the objective is invoked exactly `iters` times (one logged call
per iteration, and one history entry per iteration), each time on the
full `n_particles x n_dimensions` position matrix. -/
theorem optimize_calls_objective_each_iteration
    (f : List (List ℚ) → List ℚ) (o : Options) (top : Topology)
    (bounds : Option (List ℚ × List ℚ)) (vclamp : Option (ℚ × ℚ))
    (iters : ℕ) (s : Swarm) (seed : ℕ)
    (hrect : ∀ r ∈ s.pos, r.length = (s.pos.headD []).length) :
    (optimize f o top bounds vclamp iters s seed).callLog.length = iters ∧
    (optimize f o top bounds vclamp iters s seed).costHistory.length
      = iters ∧
    ∀ m ∈ (optimize f o top bounds vclamp iters s seed).callLog,
      m.length = s.pos.length ∧
      ∀ r ∈ m, r.length = (s.pos.headD []).length := by
  refine ⟨(runLoop_lengths f o top bounds vclamp iters s seed).2,
    (runLoop_lengths f o top bounds vclamp iters s seed).1, ?_⟩
  exact runLoop_log_shape f o top bounds vclamp s.pos.length
    ((s.pos.headD []).length) iters s seed rfl hrect rfl

/-- Witness for C5: a concrete three-iteration run logs exactly three
objective calls, each on a 2 x 1 position matrix. -/
theorem optimize_calls_objective_each_iteration_witness :
    (∀ r ∈ demoSwarm.pos, r.length = (demoSwarm.pos.headD []).length) ∧
    ((optimize sphereObj demoOptions Topology.star none none 3
        demoSwarm 42).callLog.length = 3 ∧
     (optimize sphereObj demoOptions Topology.star none none 3
        demoSwarm 42).costHistory.length = 3 ∧
     ∀ m ∈ (optimize sphereObj demoOptions Topology.star none none 3
        demoSwarm 42).callLog,
       m.length = demoSwarm.pos.length ∧
       ∀ r ∈ m, r.length = (demoSwarm.pos.headD []).length) :=
  ⟨by decide,
   optimize_calls_objective_each_iteration sphereObj demoOptions
     Topology.star none none 3 demoSwarm 42 (by decide)⟩

/-- C6: with the random generator modelled as a deterministic stream of
the explicit seed, any two runs of `optimize` with the same objective,
options, topology, bounds, clamp, iteration budget, initial swarm and
seed return identical cost histories and identical best positions. -/
theorem optimize_deterministic (f : List (List ℚ) → List ℚ) (o : Options)
    (top : Topology) (bounds : Option (List ℚ × List ℚ))
    (vclamp : Option (ℚ × ℚ)) (iters : ℕ) (s : Swarm) (seed : ℕ)
    (r₁ r₂ : RunResult)
    (h₁ : r₁ = optimize f o top bounds vclamp iters s seed)
    (h₂ : r₂ = optimize f o top bounds vclamp iters s seed) :
    r₁.costHistory = r₂.costHistory ∧ r₁.bestPos = r₂.bestPos := by
  subst h₁
  subst h₂
  exact ⟨rfl, rfl⟩

/-- Witness for C6: two concrete runs with seed 42 agree on history and
best position. -/
theorem optimize_deterministic_witness :
    optimize sphereObj demoOptions Topology.star none none 3 demoSwarm 42
      = optimize sphereObj demoOptions Topology.star none none 3
          demoSwarm 42 ∧
    ((optimize sphereObj demoOptions Topology.star none none 3 demoSwarm
        42).costHistory
      = (optimize sphereObj demoOptions Topology.star none none 3
          demoSwarm 42).costHistory ∧
     (optimize sphereObj demoOptions Topology.star none none 3 demoSwarm
        42).bestPos
      = (optimize sphereObj demoOptions Topology.star none none 3
          demoSwarm 42).bestPos) :=
  ⟨rfl,
   optimize_deterministic sphereObj demoOptions Topology.star none none 3
     demoSwarm 42 _ _ rfl rfl⟩

/-- C7: constructing a Ring-topology optimizer fails with
`InvalidTopology` exactly when `k < 1` or `k > n_particles`; otherwise
the construction succeeds (so no error is raised for
`1 <= k <= n_particles`). -/
theorem mkRingOptimizer_spec (n k : ℕ) :
    (mkRingOptimizer n k = Except.error PSOError.InvalidTopology
      ↔ (k < 1 ∨ k > n)) ∧
    (mkRingOptimizer n k = Except.error PSOError.InvalidTopology
      ∨ mkRingOptimizer n k = Except.ok (Topology.ring k)) := by
  unfold mkRingOptimizer
  by_cases h : k < 1 ∨ n < k
  · rw [if_pos h]
    exact ⟨⟨fun _ => h, fun _ => rfl⟩, Or.inl rfl⟩
  · rw [if_neg h]
    refine ⟨⟨fun hc => ?_, fun hc => absurd hc h⟩, Or.inr rfl⟩
    exact absurd hc (by simp)

/-- C8: every boundary-handler variant repairs per-coordinate and leaves
a position whose coordinates all lie inside `[min, max]` untouched:
`repair(x, bounds) = x` on feasible positions. -/
theorem repair_identity_on_feasible (v : BoundaryVariant)
    (lb ub x prev u : List ℚ)
    (h : ∀ j, j < x.length →
      lb.getD j 0 ≤ x.getD j 0 ∧ x.getD j 0 ≤ ub.getD j 0) :
    repairVec v lb ub x prev u = x := by
  apply List.ext_getElem
  · simp [repairVec]
  · intro i h₁ h₂
    simp only [repairVec, List.getElem_map, List.getElem_range]
    simp only [repairCoord]
    rw [if_pos ⟨(h i h₂).1, (h i h₂).2⟩]
    exact List.getD_eq_getElem _ _ h₂

/-- Witness for C8: the Periodic handler leaves the feasible position
`(5, 2)` with bounds `[0,5] x [0,5]` untouched — including the edge
coordinate sitting exactly on the upper bound. -/
theorem repair_identity_on_feasible_witness :
    (∀ j, j < [(5 : ℚ), 2].length →
      [(0 : ℚ), 0].getD j 0 ≤ [(5 : ℚ), 2].getD j 0 ∧
      [(5 : ℚ), 2].getD j 0 ≤ [(5 : ℚ), 5].getD j 0) ∧
    repairVec BoundaryVariant.periodic [(0 : ℚ), 0] [(5 : ℚ), 5]
      [(5 : ℚ), 2] [(1 : ℚ), 1] [(1 : ℚ)/2, 1/2] = [(5 : ℚ), 2] :=
  ⟨by decide,
   repair_identity_on_feasible BoundaryVariant.periodic [(0 : ℚ), 0]
     [(5 : ℚ), 5] [(5 : ℚ), 2] [(1 : ℚ), 1] [(1 : ℚ)/2, 1/2] (by decide)⟩

theorem lcgUnit_nonneg_lt_one (s : ℕ) : 0 ≤ lcgUnit s ∧ lcgUnit s < 1 := by
  unfold lcgUnit
  constructor
  · positivity
  · rw [div_lt_one (by norm_num)]
    exact_mod_cast Nat.mod_lt s (by norm_num)

theorem binEntry_iff (v u : ℚ) :
    (binEntry v u = 1 ↔ sigmoid (v : ℝ) > (u : ℝ)) ∧
    (binEntry v u = 0 ↔ ¬ sigmoid (v : ℝ) > (u : ℝ)) := by
  unfold binEntry
  by_cases h : sigmoid (v : ℝ) > (u : ℝ)
  · rw [if_pos h]
    refine ⟨⟨fun _ => h, fun _ => rfl⟩, ?_, ?_⟩
    · intro h10
      exact absurd h10 (by norm_num)
    · intro hn
      exact absurd h hn
  · rw [if_neg h]
    refine ⟨⟨?_, ?_⟩, ⟨fun _ => h, fun _ => rfl⟩⟩
    · intro h01
      exact absurd h01 (by norm_num)
    · intro hs
      exact absurd hs h

/-- C9: in the binary position update, the entry at particle `i`,
dimension `j` uses its own fresh uniform threshold in `[0,1)` from the
seeded stream, equals 1 exactly when `sigmoid(velocity) > threshold`
and 0 otherwise, with `sigmoid(v) = 1/(1+e^-v)`; every produced entry
lies in {0,1} (no boundary handler is involved). -/
theorem binaryPositionUpdate_spec (vel : List (List ℚ)) (rng i j : ℕ)
    (hi : i < vel.length) (hj : j < (vel.headD []).length) :
    (0 ≤ lcgUnit (lcgIter (i * (vel.headD []).length + j + 1) rng) ∧
     lcgUnit (lcgIter (i * (vel.headD []).length + j + 1) rng) < 1) ∧
    (((binaryPositionUpdate vel rng).getD i []).getD j 0 = 1 ↔
      sigmoid (((vel.getD i []).getD j 0 : ℚ) : ℝ)
        > ((lcgUnit (lcgIter (i * (vel.headD []).length + j + 1) rng) : ℚ)
            : ℝ)) ∧
    (((binaryPositionUpdate vel rng).getD i []).getD j 0 = 0 ↔
      ¬ sigmoid (((vel.getD i []).getD j 0 : ℚ) : ℝ)
        > ((lcgUnit (lcgIter (i * (vel.headD []).length + j + 1) rng) : ℚ)
            : ℝ)) ∧
    (∀ w : ℝ, sigmoid w = 1 / (1 + Real.exp (-w))) ∧
    (((binaryPositionUpdate vel rng).getD i []).getD j 0 = 0 ∨
     ((binaryPositionUpdate vel rng).getD i []).getD j 0 = 1) := by
  have h1 : (binaryPositionUpdate vel rng).getD i []
      = (List.range (vel.headD []).length).map (fun j2 =>
          binEntry ((vel.getD i []).getD j2 0)
            (lcgUnit (lcgIter (i * (vel.headD []).length + j2 + 1) rng))) := by
    simp only [binaryPositionUpdate]
    rw [getD_range_map _ _ _ hi]
  have hentry : ((binaryPositionUpdate vel rng).getD i []).getD j 0
      = binEntry ((vel.getD i []).getD j 0)
          (lcgUnit (lcgIter (i * (vel.headD []).length + j + 1) rng)) := by
    rw [h1, getD_range_map _ _ _ hj]
  refine ⟨lcgUnit_nonneg_lt_one _, ?_, ?_, fun w => rfl, ?_⟩
  · rw [hentry]
    exact (binEntry_iff _ _).1
  · rw [hentry]
    exact (binEntry_iff _ _).2
  · rw [hentry]
    by_cases h : sigmoid (((vel.getD i []).getD j 0 : ℚ) : ℝ)
        > ((lcgUnit (lcgIter (i * (vel.headD []).length + j + 1) rng) : ℚ)
            : ℝ)
    · exact Or.inr ((binEntry_iff _ _).1.mpr h)
    · exact Or.inl ((binEntry_iff _ _).2.mpr h)

/-- Witness for C9: entry (1,0) of the binary update of velocity matrix
[[0],[3]] under seed 7 obeys the sigmoid-threshold rule and is a bit. -/
theorem binaryPositionUpdate_spec_witness :
    ((1 : ℕ) < [[(0 : ℚ)], [3]].length ∧
     (0 : ℕ) < ([[(0 : ℚ)], [3]].headD []).length) ∧
    ((0 ≤ lcgUnit (lcgIter (1 * ([[(0 : ℚ)], [3]].headD []).length + 0 + 1) 7) ∧
      lcgUnit (lcgIter (1 * ([[(0 : ℚ)], [3]].headD []).length + 0 + 1) 7) < 1) ∧
     (((binaryPositionUpdate [[(0 : ℚ)], [3]] 7).getD 1 []).getD 0 0 = 1 ↔
       sigmoid ((([[(0 : ℚ)], [3]].getD 1 []).getD 0 0 : ℚ) : ℝ)
         > ((lcgUnit (lcgIter
             (1 * ([[(0 : ℚ)], [3]].headD []).length + 0 + 1) 7) : ℚ) : ℝ)) ∧
     (((binaryPositionUpdate [[(0 : ℚ)], [3]] 7).getD 1 []).getD 0 0 = 0 ↔
       ¬ sigmoid ((([[(0 : ℚ)], [3]].getD 1 []).getD 0 0 : ℚ) : ℝ)
         > ((lcgUnit (lcgIter
             (1 * ([[(0 : ℚ)], [3]].headD []).length + 0 + 1) 7) : ℚ) : ℝ)) ∧
     (∀ w : ℝ, sigmoid w = 1 / (1 + Real.exp (-w))) ∧
     (((binaryPositionUpdate [[(0 : ℚ)], [3]] 7).getD 1 []).getD 0 0 = 0 ∨
      ((binaryPositionUpdate [[(0 : ℚ)], [3]] 7).getD 1 []).getD 0 0 = 1)) :=
  ⟨⟨by decide, by decide⟩,
   binaryPositionUpdate_spec [[(0 : ℚ)], [3]] 7 1 0 (by decide) (by decide)⟩

/-- C10: the top-level pyswarms package exports exactly the five public
names `global_best`, `local_best`, `general_optimizer`, `binary`, `cost`
(its `__all__` list, with no duplicates), and each exported name is
bound by one of the package's own import lines. -/
theorem pyswarmsInit_exports :
    pyswarmsInitAll
      = ["global_best", "local_best", "general_optimizer", "binary",
         "cost"] ∧
    pyswarmsInitAll.Nodup ∧
    ∀ nm ∈ pyswarmsInitAll,
      ∃ imp ∈ pyswarmsInitImports, nm ∈ imp.names := by
  refine ⟨rfl, by decide, ?_⟩
  intro nm hnm
  fin_cases hnm
  · exact ⟨⟨".single", ["global_best", "local_best", "general_optimizer"]⟩,
      by decide, by decide⟩
  · exact ⟨⟨".single", ["global_best", "local_best", "general_optimizer"]⟩,
      by decide, by decide⟩
  · exact ⟨⟨".single", ["global_best", "local_best", "general_optimizer"]⟩,
      by decide, by decide⟩
  · exact ⟨⟨".discrete", ["binary"]⟩, by decide, by decide⟩
  · exact ⟨⟨".utils.decorators", ["cost"]⟩, by decide, by decide⟩

/-- Witness for C10: the exported name `binary` is bound by the
package's `.discrete` import line. -/
theorem pyswarmsInit_exports_witness :
    ∃ imp ∈ pyswarmsInitImports, "binary" ∈ imp.names :=
  pyswarmsInit_exports.2.2 "binary" (by decide)
